import Mathlib

/-!
Verification of the simple-eth-wallet HD wallet against its sources
(src/storage.rs, the canonical HD design, and src/main.rs, the earlier
prototype that the binary still runs).

Modelling conventions:
* byte sequences and Rust strings are `List Nat` (character code points);
* machine integers are `Nat`, with an explicit `% 2 ^ 32` where the source
  performs an `as u32` cast;
* a Rust panic (`unwrap` failure, out-of-bounds `Vec` indexing) is the
  `none` case of an `Option`-valued operation: the process aborts, there is
  no error value and no recovery;
* the cryptographic primitives live in crates and in crypto.rs / utils.rs,
  which are not part of the sources under verification, so they are
  modelled from the spec as an abstract `Engine` of pure functions together
  with an abstract wide hash (the `keccak512` parameter).
-/

/-- Byte sequences and character-code strings are lists of naturals. -/
abbrev Bytes := List Nat

/-- Modelled from the spec: `utils::xor` (utils.rs is not in src/).
Byte-wise XOR of two sequences; the spec states that the mask truncates
the hash output to the seed length and that decoding always succeeds
syntactically, so the operation truncates to the shorter input. -/
def xorBytes (a b : Bytes) : Bytes :=
  List.zipWith (fun x y => Nat.xor x y) a b

/-- Modelled from the spec: the DerivationEngine (BIP32 derivation, SEC1
encoding and the Ethereum address hash live in the bip32 crate and in
crypto.rs, none of which are in src/).  `K` is the type of extended
private keys.  Every operation is a pure function, which is exactly the
spec's determinism requirement (same seed and path always yield the same
key and address, no hidden state). -/
structure Engine (K : Type) where
  /-- XPrv::new(seed): root extended private key from a seed. -/
  rootFromSeed : Bytes → K
  /-- XPrv::derive_child with a child index and a hardened flag. -/
  deriveChild : K → Nat → Bool → K
  /-- XPub::to_bytes(): SEC1 bytes of the corresponding public key. -/
  pubBytes : K → Bytes
  /-- public_key().to_encoded_point(false).as_bytes(): the uncompressed
  public-key point, whose first byte is the 0x04 format prefix. -/
  pubUncompressed : K → Bytes
  /-- XPrv::to_bytes() / the raw private scalar bytes handed to signing. -/
  prvBytes : K → Bytes
  /-- crypto::generate_eth_address: keccak256 of the point (sans prefix),
  low 20 bytes. -/
  ethAddress : Bytes → Bytes

/-- Walks a derivation path (index, hardened) from the root key of a seed;
models utils::create_keys_from_path, per the spec's
`derivePath(seed, path)`. -/
def derivePath {K : Type} (E : Engine K) (seed : Bytes) (path : List (Nat × Bool)) : K :=
  path.foldl (fun k p => E.deriveChild k p.1 p.2) (E.rootFromSeed seed)

/-- The verification path m/44h/60h/0h (storage.rs line 79): account level,
all segments hardened. -/
def verificationPath : List (Nat × Bool) := [(44, true), (60, true), (0, true)]

/-- ETH_DERIVE_KEY_PATH, the account-deriving path m/44h/60h/0h/0
(storage.rs line 16): one non-hardened level below the verification path. -/
def ETH_DERIVE_KEY_PATH : List (Nat × Bool) :=
  [(44, true), (60, true), (0, true), (0, false)]

/-! Decimal rendering and parsing of indices, modelling Rust's
`usize::to_string` and `str::parse::<u32>`. -/

/-- Little-endian decimal digits with an explicit fuel argument, so that
the definition reduces by evaluation (Mathlib's `Nat.digits` is defined by
well-founded recursion and does not). -/
def decDigitsAux : Nat → Nat → List Nat
  | 0, _ => []
  | fuel + 1, n => if n = 0 then [] else n % 10 :: decDigitsAux fuel (n / 10)

/-- Decimal digit characters of a natural, most significant first;
models `index.to_string()` in Account::new (storage.rs line 216). -/
def decRepr (n : Nat) : Bytes :=
  if n = 0 then [48] else (decDigitsAux n n).reverse.map (fun d => 48 + d)

/-- Accumulating decimal parser over character codes: fails on the first
non-digit character. -/
def parseDigitsAux : Bytes → Nat → Option Nat
  | [], acc => some acc
  | c :: rest, acc =>
    if 48 ≤ c ∧ c ≤ 57 then parseDigitsAux rest (acc * 10 + (c - 48)) else none

/-- Strips one optional leading plus sign (character code 43), as Rust's
integer parsing does. -/
def stripPlus : Bytes → Bytes
  | c :: rest => if c = 43 then rest else c :: rest
  | [] => []

/-- Models `str::parse::<u32>` (storage.rs line 256): an optional leading
plus sign, then at least one decimal digit, value below 2^32. -/
def parseU32 (s : Bytes) : Option Nat :=
  match stripPlus s with
  | [] => none
  | c :: t =>
    match parseDigitsAux (c :: t) 0 with
    | some v => if v < 2 ^ 32 then some v else none
    | none => none

/-- Models `str::split(sep)` (storage.rs line 253) on character codes: the
result is always non-empty and concatenating it with the separator gives
back the input. -/
def splitOnByte (sep : Nat) : Bytes → List Bytes
  | [] => [[]]
  | c :: rest =>
    if c = sep then [] :: splitOnByte sep rest
    else
      match splitOnByte sep rest with
      | [] => [[c]]
      | s :: ss => (c :: s) :: ss

/-! Lowercase hex rendering, modelling `hex::encode`. -/

/-- Character code of one lowercase hex digit. -/
def hexDigitCode (d : Nat) : Nat := if d < 10 then 48 + d else 87 + d

/-- Models `hex::encode`: two lowercase hex characters per byte. -/
def hexEncode (b : Bytes) : Bytes :=
  b.flatMap (fun x => [hexDigitCode (x / 16), hexDigitCode (x % 16)])

/-! The storage.rs data model. -/

/-- The character codes of the string "m/44'/60'/0'/0/" built in
Account::new (storage.rs line 215): the account-deriving path followed by
a trailing slash. -/
def pathBase : Bytes :=
  [109, 47, 52, 52, 39, 47, 54, 48, 39, 47, 48, 39, 47, 48, 47]

/-- The path string stored with the account created at child index i:
"m/44'/60'/0'/0/" ++ decimal i. -/
def pathStr (i : Nat) : Bytes := pathBase ++ decRepr i

/-- The 20 address bytes of the non-hardened child at index i of a deriving
key: generate_eth_address of the uncompressed point without its 0x04
prefix byte (storage.rs lines 210-212). -/
def addrBytesAt {K : Type} (E : Engine K) (k : K) (i : Nat) : Bytes :=
  E.ethAddress ((E.pubUncompressed (E.deriveChild k i false)).drop 1)

/-- The address string "0x" ++ lowercase hex of the address bytes
(storage.rs line 213). -/
def addressStr {K : Type} (E : Engine K) (k : K) (i : Nat) : Bytes :=
  [48, 120] ++ hexEncode (addrBytesAt E k i)

/-- An account of storage.rs: nonce, full derivation-path string, cached
address string, and the lazily materialized private key bytes. -/
structure Account where
  nonce : Nat
  path : Bytes
  address : Bytes
  prv_key : Option Bytes
deriving DecidableEq, Repr

/-- Account::new (storage.rs lines 204-224).  The source casts the usize
index with `as u32` and unwraps `ChildNumber::new(index as u32, false)`,
which panics when the truncated index has the hardened bit set; hence the
guard and the `Option`.  On success: nonce 0, path recording the full
untruncated index, cached address of the derived child, no private key. -/
def Account.new {K : Type} (E : Engine K) (deriving_key : K) (index : Nat) :
    Option Account :=
  if index % 2 ^ 32 < 2 ^ 31 then
    some { nonce := 0
           path := pathStr index
           address := addressStr E deriving_key (index % 2 ^ 32)
           prv_key := none }
  else none

/-- AccountMetadata (storage.rs lines 113-120): the optional in-memory
deriving key and the ordered account list. -/
structure AccountMetadata (K : Type) where
  deriving_key : Option K
  accounts : List Account
deriving DecidableEq

/-- Wallet (storage.rs lines 18-26): the masked seed, the login
verification public key, and the account metadata. -/
structure Wallet (K : Type) where
  pad : Bytes
  verification_key : Bytes
  accounts_metadata : AccountMetadata K
deriving DecidableEq

/-- The successful-login mutation of verify_password (storage.rs lines
82-84): only the deriving key changes. -/
def setDerivingKey {K : Type} (w : Wallet K) (k : K) : Wallet K :=
  { w with accounts_metadata :=
      { w.accounts_metadata with deriving_key := some k } }

/-- Wallet::generate_wallet (storage.rs lines 46-56): pad = seed XOR
keccak512(password); verification key = public key at the verification
path; deriving key at ETH_DERIVE_KEY_PATH; one default account at child
index 0.  `keccak512` is the abstract wide hash (crypto.rs is not in
src/). -/
def Wallet.generate_wallet {K : Type} (E : Engine K) (keccak512 : Bytes → Bytes)
    (seed : Bytes) (password : Bytes) : Option (Wallet K) :=
  let pad := xorBytes seed (keccak512 password)
  let vk := E.pubBytes (derivePath E seed verificationPath)
  let dk := derivePath E seed ETH_DERIVE_KEY_PATH
  (Account.new E dk 0).map (fun a0 =>
    { pad := pad
      verification_key := vk
      accounts_metadata := { deriving_key := some dk, accounts := [a0] } })

/-- Wallet::verify_password (storage.rs lines 76-90): recover the candidate
seed as keccak512(password) XOR pad, re-derive the verification-path
public key and compare byte-for-byte with the stored verification key.
On a match, set the account-deriving key and return true; otherwise
return false and leave the wallet untouched. -/
def Wallet.verify_password {K : Type} (E : Engine K) (keccak512 : Bytes → Bytes)
    (w : Wallet K) (password : Bytes) : Bool × Wallet K :=
  let password_hash := keccak512 password
  let seed := xorBytes password_hash w.pad
  let xpub := E.pubBytes (derivePath E seed verificationPath)
  if xpub = w.verification_key then
    (true,
     { w with accounts_metadata :=
        { w.accounts_metadata with
            deriving_key := some (derivePath E seed ETH_DERIVE_KEY_PATH) } })
  else (false, w)

/-! Persistence: the JSON record written by Wallet::store. -/

/-- Shape of the serde_json value written to userdata.txt. -/
inductive Json where
  | null : Json
  | num : Nat → Json
  | str : Bytes → Json
  | arr : List Json → Json
  | obj : List (String × Json) → Json

/-- Field lookup in an association list of JSON object fields. -/
def lookupField : List (String × Json) → String → Option Json
  | [], _ => none
  | (k, v) :: rest, key => if k = key then some v else lookupField rest key

/-- Field lookup in a JSON object; `none` on a non-object or a missing
key. -/
def Json.lookup (j : Json) (key : String) : Option Json :=
  match j with
  | Json.obj fs => lookupField fs key
  | _ => none

/-- Key strings of the persisted record. -/
def padKey : String := "pad"

def verificationKeyKey : String := "verification_key"

def accountsMetadataKey : String := "accounts_metadata"

def derivingKeyKey : String := "deriving_key"

def accountsKey : String := "accounts"

def nonceKey : String := "nonce"

def pathKey : String := "path"

def addressKey : String := "address"

def prvKeyKey : String := "prv_key"

/-- serde serialization of a byte vector: a JSON array of numbers. -/
def jsonBytes (b : Bytes) : Json := Json.arr (b.map Json.num)

/-- serde serialization of Account (storage.rs lines 185-195): the
`prv_key` field is a plain `Option` field without a skip attribute, so it
is serialized, as null when `None`. -/
def jsonAccount (a : Account) : Json :=
  Json.obj
    [ (nonceKey, Json.num a.nonce)
    , (pathKey, Json.str a.path)
    , (addressKey, Json.str a.address)
    , (prvKeyKey, match a.prv_key with
                  | none => Json.null
                  | some b => jsonBytes b) ]

/-- serde serialization of AccountMetadata: `deriving_key` carries
`#[serde(skip)]` (storage.rs line 116), so the key is absent from the
object. -/
def jsonMetadata {K : Type} (m : AccountMetadata K) : Json :=
  Json.obj [(accountsKey, Json.arr (m.accounts.map jsonAccount))]

/-- serde serialization of Wallet (storage.rs lines 18-26). -/
def jsonWallet {K : Type} (w : Wallet K) : Json :=
  Json.obj
    [ (padKey, jsonBytes w.pad)
    , (verificationKeyKey, jsonBytes w.verification_key)
    , (accountsMetadataKey, jsonMetadata w.accounts_metadata) ]

/-- The clearing pass of Wallet::store (storage.rs lines 62-66): drop the
deriving key and every account's private key before serializing. -/
def clearSensitive {K : Type} (w : Wallet K) : Wallet K :=
  { w with accounts_metadata :=
      { deriving_key := none
        accounts := w.accounts_metadata.accounts.map
          (fun a => { a with prv_key := none }) } }

/-- Wallet::store (storage.rs lines 59-74): clear sensitive fields, then
serialize; returns the written record and the wallet as mutated. -/
def Wallet.store {K : Type} (w : Wallet K) : Json × Wallet K :=
  (jsonWallet (clearSensitive w), clearSensitive w)

/-! The transaction pipeline of Account::send_transaction. -/

/-- ethereum_tx_sign::RawTransaction as constructed in storage.rs lines
324-331. -/
structure RawTransaction where
  nonce : Nat
  /-- The `to` field of the crate's RawTransaction (`to` is reserved in
  Lean). -/
  to_addr : Bytes
  value : Nat
  gas_price : Nat
  gas : Nat
  data : Bytes
deriving DecidableEq, Repr

/-- RawTransaction::new, argument order as in the source call site:
nonce, recipient, value, gas price, gas limit, data. -/
def RawTransaction.new (nonce : Nat) (to_addr : Bytes) (value gas_price gas : Nat)
    (data : Bytes) : RawTransaction :=
  { nonce := nonce, to_addr := to_addr, value := value, gas_price := gas_price
    gas := gas, data := data }

/-- One invocation of `tx.sign(&key, &chain_id)`: records which
transaction, which private-key bytes and which chain id reached the
signing routine. -/
structure SignCall where
  tx : RawTransaction
  key : Bytes
  chainId : Nat
deriving DecidableEq, Repr

/-- RINKEBY_CHAIN_ID (storage.rs line 15). -/
def RINKEBY_CHAIN_ID : Nat := 4

/-- External inputs consumed by one run of Account::send_transaction:
the recipient as validated by utils::get_valid_address_bytes (display
string and 20 raw bytes, or a format error), the transfer amount already
converted to wei by utils::eth_to_wei, the gas-price RPC result (none
when the response carries no string result, which the source unwraps: a
panic), the confirmation menu choice, and the broadcast RPC result
string (none when the response has no string result). -/
structure SendInput where
  recipient : Option (Bytes × Bytes)
  weiAmount : Nat
  gasPrice : Option Nat
  confirm : Nat
  broadcastResult : Option Bytes
deriving DecidableEq, Repr

/-- Character codes of the sentinel string "0x0" (storage.rs line 359). -/
def zeroSentinel : Bytes := [48, 120, 48]

/-- The `tx`/`sc` bindings of send_transaction (storage.rs lines 324-332):
the transaction built for signing and the signing call made on it. -/
def signCallOf (a : Account) (recipient_bytes : Bytes) (wei price : Nat)
    (key : Bytes) : SignCall :=
  { tx := RawTransaction.new a.nonce recipient_bytes wei price 21000 []
    key := key
    chainId := RINKEBY_CHAIN_ID }

/-- Account::send_transaction (storage.rs lines 294-371).  An invalid
recipient returns early with nothing changed; a gas-price RPC response
without a string result panics (`none`); signing unwraps the private key
(panic when absent); the nonce is incremented exactly when the user
confirms and the broadcast response carries a string result different
from "0x0".  The result pairs the updated account with the sign call
that was issued, if any. -/
def Account.send_transaction (a : Account) (inp : SendInput) :
    Option (Account × Option SignCall) :=
  match inp.recipient with
  | none => some (a, none)
  | some (_, recipient_bytes) =>
    match inp.gasPrice with
    | none => none
    | some price =>
      match a.prv_key with
      | none => none
      | some key =>
        if inp.confirm = 1 then
          match inp.broadcastResult with
          | some s =>
            if s = zeroSentinel then
              some (a, some (signCallOf a recipient_bytes inp.weiAmount price key))
            else
              some ({ a with nonce := a.nonce + 1 },
                some (signCallOf a recipient_bytes inp.weiAmount price key))
          | none => some (a, some (signCallOf a recipient_bytes inp.weiAmount price key))
        else some (a, some (signCallOf a recipient_bytes inp.weiAmount price key))

/-- The index re-parsed from the account's stored path at materialization
time: `self.path.split("/").last().parse::<u32>()` (storage.rs lines
253-256); `none` is the unwrap panic. -/
def materializeIndex (a : Account) : Option Nat :=
  parseU32 ((splitOnByte 47 a.path).getLastD [])

/-- The lazy private-key materialization of Account::run, menu option 2
(storage.rs lines 252-258): when `prv_key` is absent, parse the child
index back out of the path string and derive the child secret key
non-hardened from the deriving key (utils::derive_child_secret_key,
modelled from the spec as the private bytes of the non-hardened child). -/
def Account.materialize {K : Type} (E : Engine K) (deriving_key : K)
    (a : Account) : Option Account :=
  match a.prv_key with
  | some _ => some a
  | none =>
    (materializeIndex a).map (fun i =>
      { a with prv_key := some (E.prvBytes (E.deriveChild deriving_key i false)) })

/-! The account-registry state machine (AccountMetadata::run together with
Account::run, storage.rs lines 161-182 and 226-267). -/

/-- In-memory state of a running session: the account list and the index
of the active account (the `account` mutable borrow of the run loop). -/
structure RegState where
  accounts : List Account
  active : Nat
deriving DecidableEq, Repr

/-- AccountMetadata::get_account (storage.rs lines 156-158):
`&mut self.accounts[index]`, an indexing that panics when out of
bounds (`none`). -/
def get_account (accounts : List Account) (index : Nat) : Option Account :=
  accounts[index]?

/-- One user-level operation of the session loop: view balance (menu 1),
send a transaction with its external inputs (menu 2), create the next
account (menu 3), or switch the active account (menu 4 plus the index
read from the user). -/
inductive Cmd where
  | balance : Cmd
  | send : SendInput → Cmd
  | create : Cmd
  | switch : Nat → Cmd
deriving DecidableEq, Repr

/-- One step of the session loop.  `none` models a panic: a failed
ChildNumber unwrap in Account::new, an out-of-bounds index in
get_account, a failed path re-parse, or a gas-price unwrap. -/
def stepCmd {K : Type} (E : Engine K) (deriving_key : K) (s : RegState)
    (c : Cmd) : Option RegState :=
  match c with
  | Cmd.balance => some s
  | Cmd.send inp =>
    match s.accounts[s.active]? with
    | none => none
    | some a0 =>
      match Account.materialize E deriving_key a0 with
      | none => none
      | some a1 =>
        (Account.send_transaction a1 inp).map (fun r =>
          { s with accounts := s.accounts.set s.active r.1 })
  | Cmd.create =>
    (Account.new E deriving_key s.accounts.length).map (fun a =>
      { accounts := s.accounts ++ [a], active := s.accounts.length })
  | Cmd.switch n =>
    (get_account s.accounts n).map (fun _ => { s with active := n })

/-- The state AccountMetadata::run starts from: the registry created by
AccountMetadata::new (one default account at child index 0, storage.rs
lines 124-129) with the default account active (line 162). -/
def initReg {K : Type} (E : Engine K) (deriving_key : K) : Option RegState :=
  (Account.new E deriving_key 0).map (fun a => { accounts := [a], active := 0 })

/-- The session state reached from creation after a list of operations;
`none` when any step panicked. -/
def reach {K : Type} (E : Engine K) (deriving_key : K) (cs : List Cmd) :
    Option RegState :=
  match initReg E deriving_key with
  | none => none
  | some s0 => cs.foldlM (fun s c => stepCmd E deriving_key s c) s0

/-! The superseded prototype flow of src/main.rs, still the flow the
binary executes.  Only the pieces that decide which key signs are
modelled. -/

/-- main.rs generate_default_keypair (lines 156-164): the hardened child
m/0h of the master key, returned together with its public key. -/
def generate_default_keypair {K : Type} (E : Engine K) (seed : Bytes) :
    K × Bytes :=
  let child := E.deriveChild (E.rootFromSeed seed) 0 true
  (child, E.pubBytes child)

/-- The `root_pub_key` persisted by main.rs (lines 88, 139, 145-147): the
public key of the default keypair without its leading SEC1 byte, used at
login (line 113) to verify the password-recovered seed. -/
def mainStoredRootPubKey {K : Type} (E : Engine K) (seed : Bytes) : Bytes :=
  (generate_default_keypair E seed).2.drop 1

/-- main.rs send_transaction (lines 229-245): a fixed nonce of 1, fixed
gas price and limit, and a signature produced with the bytes of
`secret_key` — the very key whose public key was stored as the login
verification key. -/
def mainSendSignCall {K : Type} (E : Engine K) (secret_key : K)
    (recipient : Bytes) (amount : Nat) : SignCall :=
  { tx := RawTransaction.new 1 recipient amount 2000000000 1000000 []
    key := E.prvBytes secret_key
    chainId := RINKEBY_CHAIN_ID }

/-! A concrete executable engine used by witnesses and counterexamples:
keys are lists of naturals, child derivation conses the index and the
hardened flag, so distinct derivation paths give distinct keys. -/

/-- Toy engine over `K := List Nat` for concrete evaluation. -/
def TE : Engine (List Nat) :=
  { rootFromSeed := fun s => s
    deriveChild := fun k i h => i :: (if h then 1 else 0) :: k
    pubBytes := fun k => 2 :: k
    pubUncompressed := fun k => 4 :: k
    prvBytes := fun k => k
    ethAddress := fun b => b.take 20 }

/-- Nonce of the account at a position, 0 past the end (used to state
nonce monotonicity across steps). -/
def nonceAt (l : List Account) (i : Nat) : Nat :=
  ((l[i]?).map (fun a => a.nonce)).getD 0

/-! Helper lemmas. -/

theorem xorBytes_cancel (a hs : Bytes) (hlen : a.length ≤ hs.length) :
    xorBytes hs (xorBytes a hs) = a := by
  induction a generalizing hs with
  | nil => simp [xorBytes]
  | cons x xs ih =>
    cases hs with
    | nil => simp at hlen
    | cons y ys =>
      simp only [List.length_cons, Nat.succ_le_succ_iff] at hlen
      show List.zipWith _ (y :: ys) (List.zipWith _ (x :: xs) (y :: ys)) = x :: xs
      rw [List.zipWith_cons_cons, List.zipWith_cons_cons]
      refine congrArg₂ List.cons ?_ (ih ys hlen)
      show y ^^^ (x ^^^ y) = x
      rw [Nat.xor_comm x y, ← Nat.xor_assoc, Nat.xor_self, Nat.zero_xor]

theorem send_transaction_cases (a : Account) (inp : SendInput) (a2 : Account)
    (t : Option SignCall) (h : Account.send_transaction a inp = some (a2, t)) :
    a2 = a ∨ a2 = { a with nonce := a.nonce + 1 } := by
  cases hrec : inp.recipient with
  | none =>
    simp [Account.send_transaction, hrec] at h
    exact Or.inl h.1.symm
  | some pr =>
    obtain ⟨disp, rb⟩ := pr
    cases hgp : inp.gasPrice with
    | none => simp [Account.send_transaction, hrec, hgp] at h
    | some p =>
      cases hpk : a.prv_key with
      | none => simp [Account.send_transaction, hrec, hgp, hpk] at h
      | some key =>
        by_cases hcf : inp.confirm = 1
        · cases hbr : inp.broadcastResult with
          | none =>
            simp [Account.send_transaction, hrec, hgp, hpk, hcf, hbr] at h
            exact Or.inl h.1.symm
          | some s =>
            by_cases hz : s = zeroSentinel
            · simp [Account.send_transaction, hrec, hgp, hpk, hcf, hbr, hz] at h
              exact Or.inl h.1.symm
            · simp [Account.send_transaction, hrec, hgp, hpk, hcf, hbr, hz] at h
              exact Or.inr h.1.symm
        · simp [Account.send_transaction, hrec, hgp, hpk, hcf] at h
          exact Or.inl h.1.symm

theorem materialize_cases {K : Type} (E : Engine K) (k : K) (a a1 : Account)
    (h : Account.materialize E k a = some a1) :
    (∃ key, a.prv_key = some key ∧ a1 = a) ∨
    ∃ i, materializeIndex a = some i ∧ a.prv_key = none ∧
      a1 = { a with prv_key := some (E.prvBytes (E.deriveChild k i false)) } := by
  unfold Account.materialize at h
  cases hpk : a.prv_key with
  | some key => rw [hpk] at h; simp at h; exact Or.inl ⟨key, rfl, h.symm⟩
  | none =>
    rw [hpk] at h
    cases hmi : materializeIndex a with
    | none => rw [hmi] at h; simp at h
    | some i =>
      rw [hmi] at h; simp at h
      exact Or.inr ⟨i, rfl, rfl, h.symm⟩

/-! Claim theorems, first group. -/

/-- C1: for every stored pad and verification key, verify_password returns
true and sets the account-deriving key exactly when the public key derived
at the verification path from xor(keccak512(password), pad) equals the
stored verification key byte-for-byte; on a mismatch it returns false and
leaves the wallet (pad, verification key, accounts, deriving key)
unchanged. -/
theorem C1_verify_password {K : Type} (E : Engine K) (keccak512 : Bytes → Bytes)
    (w : Wallet K) (password : Bytes) :
    ((Wallet.verify_password E keccak512 w password).1 = true ↔
      E.pubBytes (derivePath E (xorBytes (keccak512 password) w.pad) verificationPath)
        = w.verification_key)
    ∧ ((Wallet.verify_password E keccak512 w password).1 = true →
        (Wallet.verify_password E keccak512 w password).2 =
          setDerivingKey w
            (derivePath E (xorBytes (keccak512 password) w.pad) ETH_DERIVE_KEY_PATH))
    ∧ ((Wallet.verify_password E keccak512 w password).1 = false →
        (Wallet.verify_password E keccak512 w password).2 = w) := by
  unfold Wallet.verify_password
  by_cases hc :
      E.pubBytes (derivePath E (xorBytes (keccak512 password) w.pad) verificationPath)
        = w.verification_key
  · simp [hc, setDerivingKey]
  · simp [hc]

/-- Witness for C1: on a wallet freshly generated from seed [5] with the
constant hash, verifying with the generating password succeeds and sets
the deriving key. -/
theorem C1_verify_password_witness :
    ∃ w : Wallet (List Nat),
      Wallet.generate_wallet TE (fun _ => [7]) [5] [9] = some w ∧
      (Wallet.verify_password TE (fun _ => [7]) w [9]).1 = true ∧
      (Wallet.verify_password TE (fun _ => [7]) w [9]).2.accounts_metadata.deriving_key
        = some (derivePath TE [5] ETH_DERIVE_KEY_PATH) := by
  refine ⟨(Wallet.generate_wallet TE (fun _ => [7]) [5] [9]).getD ⟨[], [], ⟨none, []⟩⟩,
    by decide, ?_, ?_⟩
  · exact (C1_verify_password TE (fun _ => [7])
      ((Wallet.generate_wallet TE (fun _ => [7]) [5] [9]).getD ⟨[], [], ⟨none, []⟩⟩)
      [9]).1.mpr (by decide)
  · rw [(C1_verify_password TE (fun _ => [7])
      ((Wallet.generate_wallet TE (fun _ => [7]) [5] [9]).getD ⟨[], [], ⟨none, []⟩⟩)
      [9]).2.1 (by decide)]
    decide

/-- C2: for every seed and password, decoding the stored pad with the same
password recovers the seed exactly: xor(keccak512(password),
xor(seed, keccak512(password))) = seed, provided the hash output is at
least seed-length (it is truncated to the seed length by the mask). -/
theorem C2_pad_roundtrip {K : Type} (E : Engine K) (keccak512 : Bytes → Bytes)
    (seed password : Bytes) (w : Wallet K)
    (hw : Wallet.generate_wallet E keccak512 seed password = some w)
    (hlen : seed.length ≤ (keccak512 password).length) :
    xorBytes (keccak512 password) w.pad = seed := by
  rw [show Wallet.generate_wallet E keccak512 seed password =
      some ⟨xorBytes seed (keccak512 password),
        E.pubBytes (derivePath E seed verificationPath),
        ⟨some (derivePath E seed ETH_DERIVE_KEY_PATH),
          [⟨0, pathStr 0,
            addressStr E (derivePath E seed ETH_DERIVE_KEY_PATH) (0 % 2 ^ 32),
            none⟩]⟩⟩ from rfl] at hw
  obtain rfl := (Option.some.injEq _ _).mp hw
  exact xorBytes_cancel seed (keccak512 password) hlen

/-- Witness for C2: concrete roundtrip for seed [5, 6] and hash [7, 8, 9]. -/
theorem C2_pad_roundtrip_witness :
    ∃ w : Wallet (List Nat),
      Wallet.generate_wallet TE (fun _ => [7, 8, 9]) [5, 6] [1] = some w ∧
      xorBytes ((fun (_ : Bytes) => [7, 8, 9]) [1]) w.pad = [5, 6] := by
  refine ⟨_, rfl, ?_⟩
  exact C2_pad_roundtrip TE (fun _ => [7, 8, 9]) [5, 6] [1] _ rfl (by decide)

/-- C10: every transaction handed to the signing routine by
send_transaction carries the account's current nonce, a gas limit of
exactly 21000, an empty data field and the Rinkeby chain id; only the
validated recipient bytes, the wei amount and the fetched gas price come
from the inputs. -/
theorem C10_transaction_fields (a : Account) (inp : SendInput) (a2 : Account)
    (sc : SignCall)
    (h : Account.send_transaction a inp = some (a2, some sc)) :
    sc.tx.nonce = a.nonce ∧ sc.tx.gas = 21000 ∧ sc.tx.data = [] ∧
    sc.tx.value = inp.weiAmount ∧
    (∃ disp rb, inp.recipient = some (disp, rb) ∧ sc.tx.to_addr = rb) ∧
    (∃ p, inp.gasPrice = some p ∧ sc.tx.gas_price = p) ∧
    sc.chainId = RINKEBY_CHAIN_ID := by
  cases hrec : inp.recipient with
  | none => simp [Account.send_transaction, hrec] at h
  | some pr =>
    obtain ⟨disp, rb⟩ := pr
    cases hgp : inp.gasPrice with
    | none => simp [Account.send_transaction, hrec, hgp] at h
    | some p =>
      cases hpk : a.prv_key with
      | none => simp [Account.send_transaction, hrec, hgp, hpk] at h
      | some key =>
        have hsc : sc = signCallOf a rb inp.weiAmount p key := by
          by_cases hcf : inp.confirm = 1
          · cases hbr : inp.broadcastResult with
            | none =>
              simp [Account.send_transaction, hrec, hgp, hpk, hcf, hbr] at h
              exact h.2.symm
            | some s =>
              by_cases hz : s = zeroSentinel
              · simp [Account.send_transaction, hrec, hgp, hpk, hcf, hbr, hz] at h
                exact h.2.symm
              · simp [Account.send_transaction, hrec, hgp, hpk, hcf, hbr, hz] at h
                exact h.2.symm
          · simp [Account.send_transaction, hrec, hgp, hpk, hcf] at h
            exact h.2.symm
        subst hsc
        exact ⟨rfl, rfl, rfl, rfl, ⟨disp, rb, rfl, rfl⟩, ⟨p, rfl, rfl⟩, rfl⟩

/-- Witness for C10: a concrete confirmed send issues a sign call with
gas limit 21000, empty data, and the account's nonce 3. -/
theorem C10_transaction_fields_witness :
    (Account.send_transaction
        { nonce := 3, path := pathStr 0, address := addressStr TE [] 0,
          prv_key := some [1, 2] }
        { recipient := some ([97], [10, 11]), weiAmount := 50,
          gasPrice := some 7, confirm := 1, broadcastResult := some [48, 120, 49] }
      ).isSome = true ∧
    (3 = 3 ∧ 21000 = 21000 ∧ ([] : Bytes) = [] ∧ 50 = 50 ∧
      (∃ disp rb,
        some (([97] : Bytes), ([10, 11] : Bytes)) = some (disp, rb) ∧ ([10, 11] : Bytes) = rb) ∧
      (∃ p, some 7 = some p ∧ 7 = p) ∧ RINKEBY_CHAIN_ID = RINKEBY_CHAIN_ID) := by
  constructor
  · decide
  · have h := C10_transaction_fields
      { nonce := 3, path := pathStr 0, address := addressStr TE [] 0,
        prv_key := some [1, 2] }
      { recipient := some ([97], [10, 11]), weiAmount := 50,
        gasPrice := some 7, confirm := 1, broadcastResult := some [48, 120, 49] }
      { nonce := 4, path := pathStr 0, address := addressStr TE [] 0,
        prv_key := some [1, 2] }
      (signCallOf
        { nonce := 3, path := pathStr 0, address := addressStr TE [] 0,
          prv_key := some [1, 2] } [10, 11] 50 7 [1, 2])
      (by decide)
    exact h

/-! Decimal round-trip: parsing the rendered index recovers the index. -/

theorem parseDigitsAux_map (l : List Nat) (acc : Nat) (hd : ∀ d ∈ l, d < 10) :
    parseDigitsAux (l.map (fun d => 48 + d)) acc
      = some (l.foldl (fun a d => a * 10 + d) acc) := by
  induction l generalizing acc with
  | nil => simp [parseDigitsAux]
  | cons d t ih =>
    have hd0 : d < 10 := hd d (List.mem_cons_self d t)
    rw [List.map_cons]
    rw [show parseDigitsAux ((48 + d) :: t.map (fun d => 48 + d)) acc
        = if 48 ≤ 48 + d ∧ 48 + d ≤ 57 then
            parseDigitsAux (t.map (fun d => 48 + d)) (acc * 10 + (48 + d - 48))
          else none from rfl]
    rw [if_pos ⟨by omega, by omega⟩, show 48 + d - 48 = d from by omega,
      List.foldl_cons]
    exact ih _ (fun x hx => hd x (List.mem_cons_of_mem d hx))

theorem foldl_reverse_ofDigits (l : List Nat) (acc : Nat) :
    (l.reverse).foldl (fun a d => a * 10 + d) acc
      = acc * 10 ^ l.length + Nat.ofDigits 10 l := by
  induction l generalizing acc with
  | nil => simp [Nat.ofDigits]
  | cons d t ih =>
    rw [List.reverse_cons, List.foldl_append, ih acc]
    show (acc * 10 ^ t.length + Nat.ofDigits 10 t) * 10 + d
      = acc * 10 ^ (d :: t).length + Nat.ofDigits 10 (d :: t)
    rw [Nat.ofDigits_cons, List.length_cons, pow_succ]
    ring

theorem decDigitsAux_eq_digits (fuel n : Nat) (h : n ≤ fuel) :
    decDigitsAux fuel n = Nat.digits 10 n := by
  induction fuel generalizing n with
  | zero =>
    have hz : n = 0 := by omega
    subst hz
    simp [decDigitsAux]
  | succ fuel ih =>
    by_cases h0 : n = 0
    · subst h0; simp [decDigitsAux]
    · show (if n = 0 then [] else n % 10 :: decDigitsAux fuel (n / 10)) = _
      rw [if_neg h0]
      rw [ih (n / 10) (by
        have := Nat.div_lt_self (Nat.pos_of_ne_zero h0) (by norm_num : 1 < 10)
        omega)]
      rw [Nat.digits_def' (by norm_num : 1 < 10) (Nat.pos_of_ne_zero h0)]

theorem parseDigitsAux_decRepr (n : Nat) : parseDigitsAux (decRepr n) 0 = some n := by
  by_cases h0 : n = 0
  · subst h0; rfl
  · unfold decRepr
    rw [if_neg h0, decDigitsAux_eq_digits n n (Nat.le_refl n)]
    rw [parseDigitsAux_map _ 0
      (fun d hd => Nat.digits_lt_base (by norm_num) (List.mem_reverse.mp hd))]
    rw [foldl_reverse_ofDigits]
    simp [Nat.ofDigits_digits]

theorem decRepr_digits (n : Nat) : ∀ c ∈ decRepr n, 48 ≤ c ∧ c ≤ 57 := by
  intro c hc
  unfold decRepr at hc
  by_cases h0 : n = 0
  · rw [if_pos h0] at hc
    simp at hc
    omega
  · rw [if_neg h0, decDigitsAux_eq_digits n n (Nat.le_refl n)] at hc
    simp only [List.mem_map, List.mem_reverse] at hc
    obtain ⟨d, hd, rfl⟩ := hc
    have := Nat.digits_lt_base (by norm_num) hd
    omega

theorem decRepr_ne_nil (n : Nat) : decRepr n ≠ [] := by
  unfold decRepr
  by_cases h0 : n = 0
  · rw [if_pos h0]; simp
  · rw [if_neg h0, decDigitsAux_eq_digits n n (Nat.le_refl n)]
    simp only [ne_eq, List.map_eq_nil_iff, List.reverse_eq_nil_iff]
    exact Nat.digits_ne_nil_iff_ne_zero.mpr h0

theorem parseU32_decRepr (n : Nat) (hn : n < 2 ^ 32) : parseU32 (decRepr n) = some n := by
  obtain ⟨c, t, hct⟩ : ∃ c t, decRepr n = c :: t := by
    cases hd : decRepr n with
    | nil => exact absurd hd (decRepr_ne_nil n)
    | cons c t => exact ⟨c, t, rfl⟩
  have hc := decRepr_digits n c (by rw [hct]; exact List.mem_cons_self c t)
  have hsp : stripPlus (c :: t) = c :: t := by
    simp only [stripPlus]
    rw [if_neg (show ¬c = 43 from by omega)]
  have hparse : parseDigitsAux (c :: t) 0 = some n := by
    rw [← hct]; exact parseDigitsAux_decRepr n
  unfold parseU32
  rw [hct, hsp]
  show (match parseDigitsAux (c :: t) 0 with
        | some v => if v < 2 ^ 32 then some v else none
        | none => none) = some n
  rw [hparse]
  show (if n < 2 ^ 32 then some n else none) = some n
  rw [if_pos hn]

/-! Splitting lemmas: the last segment of a path. -/

theorem splitOnByte_ne_nil (sep : Nat) (l : Bytes) : splitOnByte sep l ≠ [] := by
  induction l with
  | nil => simp [splitOnByte]
  | cons c rest ih =>
    simp only [splitOnByte]
    by_cases hc : c = sep
    · rw [if_pos hc]; simp
    · rw [if_neg hc]
      cases hr : splitOnByte sep rest with
      | nil => simp
      | cons s ss => simp

theorem getLastD_irrel (r : List Bytes) (hr : r ≠ []) (d1 d2 : Bytes) :
    r.getLastD d1 = r.getLastD d2 := by
  cases r with
  | nil => exact absurd rfl hr
  | cons x xs => rw [List.getLastD_cons, List.getLastD_cons]

theorem splitOnByte_length_ge_two (sep : Nat) (l : Bytes) (hin : sep ∈ l) :
    2 ≤ (splitOnByte sep l).length := by
  induction l with
  | nil => simp at hin
  | cons c rest ih =>
    simp only [splitOnByte]
    by_cases hc : c = sep
    · rw [if_pos hc]
      have hne := splitOnByte_ne_nil sep rest
      have hlen : 0 < (splitOnByte sep rest).length := List.length_pos.mpr hne
      simp only [List.length_cons]
      omega
    · rw [if_neg hc]
      have hin' : sep ∈ rest := by
        rcases List.mem_cons.mp hin with h | h
        · exact absurd h.symm hc
        · exact h
      have h2 := ih hin'
      cases hr : splitOnByte sep rest with
      | nil => rw [hr] at h2; simp at h2
      | cons s ss =>
        rw [hr] at h2
        simp only [List.length_cons] at h2 ⊢
        omega

theorem splitOnByte_no_sep (sep : Nat) (l : Bytes) (h : sep ∉ l) :
    splitOnByte sep l = [l] := by
  induction l with
  | nil => rfl
  | cons c rest ih =>
    have hc : ¬c = sep := by
      intro hcc
      exact h (by rw [hcc]; exact List.mem_cons_self sep rest)
    have hrest : sep ∉ rest := fun hrr => h (List.mem_cons_of_mem c hrr)
    simp only [splitOnByte]
    rw [if_neg hc, ih hrest]

theorem splitOnByte_lastD_append (sep : Nat) (ds : Bytes) (xs : Bytes) :
    (splitOnByte sep (xs ++ sep :: ds)).getLastD []
      = (splitOnByte sep ds).getLastD [] := by
  induction xs with
  | nil =>
    simp only [List.nil_append, splitOnByte, if_pos]
    rw [List.getLastD_cons]
  | cons c xs ih =>
    simp only [List.cons_append, splitOnByte]
    by_cases hc : c = sep
    · rw [if_pos hc, List.getLastD_cons]
      exact ih
    · rw [if_neg hc]
      have hmem : sep ∈ xs ++ sep :: ds :=
        List.mem_append_right xs (List.mem_cons_self sep ds)
      have h2 := splitOnByte_length_ge_two sep _ hmem
      cases hr : splitOnByte sep (xs ++ sep :: ds) with
      | nil => exact absurd hr (splitOnByte_ne_nil sep _)
      | cons s ss =>
        rw [hr] at h2 ih
        have hss : ss ≠ [] := by
          simp only [List.length_cons] at h2
          intro hcon
          rw [hcon] at h2
          simp at h2
        rw [List.getLastD_cons] at ih ⊢
        rw [getLastD_irrel ss hss (c :: s) s]
        exact ih

/-- The index parsed back at materialization equals the index the path was
rendered from, for indices below 2^32. -/
theorem materializeIndex_pathStr (a : Account) (i : Nat) (hp : a.path = pathStr i)
    (hi : i < 2 ^ 32) : materializeIndex a = some i := by
  unfold materializeIndex
  rw [hp]
  have hsplit : pathStr i = [109, 47, 52, 52, 39, 47, 54, 48, 39, 47, 48, 39, 47, 48]
      ++ 47 :: decRepr i := rfl
  rw [hsplit, splitOnByte_lastD_append]
  have hnosep : (47 : Nat) ∉ decRepr i := by
    intro hmem
    have := decRepr_digits i 47 hmem
    omega
  rw [splitOnByte_no_sep 47 _ hnosep]
  show parseU32 (decRepr i) = some i
  exact parseU32_decRepr i hi

/-! Hex encoding is injective on byte sequences. -/

theorem hexDigitCode_inj (d1 d2 : Nat) (h1 : d1 < 16) (h2 : d2 < 16)
    (h : hexDigitCode d1 = hexDigitCode d2) : d1 = d2 := by
  unfold hexDigitCode at h
  by_cases ha : d1 < 10 <;> by_cases hb : d2 < 10 <;>
    simp [ha, hb] at h <;> omega

theorem hexEncode_inj (a b : Bytes) (ha : ∀ x ∈ a, x < 256) (hb : ∀ x ∈ b, x < 256)
    (h : hexEncode a = hexEncode b) : a = b := by
  induction a generalizing b with
  | nil =>
    cases b with
    | nil => rfl
    | cons y ys => simp [hexEncode] at h
  | cons x xs ih =>
    cases b with
    | nil => simp [hexEncode] at h
    | cons y ys =>
      simp only [hexEncode, List.flatMap_cons, List.cons_append, List.nil_append,
        List.cons.injEq] at h
      obtain ⟨h1, h2, h3⟩ := h
      have hx := ha x (List.mem_cons_self x xs)
      have hy := hb y (List.mem_cons_self y ys)
      have e1 : x / 16 = y / 16 := hexDigitCode_inj _ _ (by omega) (by omega) h1
      have e2 : x % 16 = y % 16 := hexDigitCode_inj _ _ (by omega) (by omega) h2
      have hxy : x = y := by omega
      subst hxy
      rw [ih ys (fun z hz => ha z (List.mem_cons_of_mem x hz))
        (fun z hz => hb z (List.mem_cons_of_mem x hz)) h3]

theorem addressStr_inj {K : Type} (E : Engine K) (k : K) (i j : Nat)
    (hi : ∀ x ∈ addrBytesAt E k i, x < 256) (hj : ∀ x ∈ addrBytesAt E k j, x < 256)
    (hne : addrBytesAt E k i ≠ addrBytesAt E k j) :
    addressStr E k i ≠ addressStr E k j := by
  unfold addressStr
  intro hcon
  apply hne
  simp only [List.cons_append, List.nil_append, List.cons.injEq, true_and] at hcon
  exact hexEncode_inj _ _ hi hj hcon

/-! The session invariant: every account at position i carries the path,
address and (optional) signing key of child index i. -/

/-- Position i of the account list holds the data of child index i. -/
def goodAccount {K : Type} (E : Engine K) (k : K) (i : Nat) (a : Account) : Prop :=
  a.path = pathStr i ∧ a.address = addressStr E k i ∧
    (a.prv_key = none ∨ a.prv_key = some (E.prvBytes (E.deriveChild k i false)))

/-- Invariant of every reachable session state: at most 2^31 accounts, a
valid active pointer, and each position holding its own child data. -/
def RegInv {K : Type} (E : Engine K) (k : K) (s : RegState) : Prop :=
  s.accounts.length ≤ 2 ^ 31 ∧ s.active < s.accounts.length ∧
  ∀ i a, s.accounts[i]? = some a → goodAccount E k i a

theorem initReg_eq {K : Type} (E : Engine K) (k : K) :
    initReg E k = some ⟨[⟨0, pathStr 0, addressStr E k 0, none⟩], 0⟩ := by
  simp [initReg, Account.new]

theorem stepCmd_RegInv {K : Type} (E : Engine K) (k : K) (s : RegState) (c : Cmd)
    (s2 : RegState) (hInv : RegInv E k s) (h : stepCmd E k s c = some s2) :
    RegInv E k s2 := by
  obtain ⟨hlen, hact, hgood⟩ := hInv
  cases c with
  | balance =>
    simp [stepCmd] at h
    rw [← h]
    exact ⟨hlen, hact, hgood⟩
  | send inp =>
    cases ha0 : s.accounts[s.active]? with
    | none => simp [stepCmd, ha0] at h
    | some a0 =>
      cases hm : Account.materialize E k a0 with
      | none => simp [stepCmd, ha0, hm] at h
      | some a1 =>
        cases hsend : Account.send_transaction a1 inp with
        | none => simp [stepCmd, ha0, hm, hsend] at h
        | some r =>
          obtain ⟨a2, t⟩ := r
          simp [stepCmd, ha0, hm, hsend] at h
          rw [← h]
          have hga0 := hgood s.active a0 ha0
          have hia : s.active < 2 ^ 32 := by omega
          have hmidx : materializeIndex a0 = some s.active :=
            materializeIndex_pathStr a0 s.active hga0.1 hia
          have hga1 : goodAccount E k s.active a1 := by
            rcases materialize_cases E k a0 a1 hm with ⟨key, hk, rfl⟩ | ⟨i0, hi0, hpk0, rfl⟩
            · exact hga0
            · rw [hmidx] at hi0
              obtain rfl := (Option.some.injEq _ _).mp hi0
              exact ⟨hga0.1, hga0.2.1, Or.inr rfl⟩
          have hga2 : goodAccount E k s.active a2 := by
            rcases send_transaction_cases a1 inp a2 t hsend with rfl | rfl
            · exact hga1
            · exact ⟨hga1.1, hga1.2.1, hga1.2.2⟩
          refine ⟨by simpa using hlen, by simpa using hact, ?_⟩
          intro i b hb
          by_cases hi : i = s.active
          · subst hi
            rw [List.getElem?_set_self hact] at hb
            obtain rfl := ((Option.some.injEq _ _).mp hb).symm
            exact hga2
          · rw [List.getElem?_set_ne (fun hcon => hi hcon.symm)] at hb
            exact hgood i b hb
  | create =>
    cases hnew : Account.new E k s.accounts.length with
    | none => simp [stepCmd, hnew] at h
    | some a =>
      simp [stepCmd, hnew] at h
      rw [← h]
      have hguard : s.accounts.length % 2 ^ 32 < 2 ^ 31 := by
        by_contra hng
        unfold Account.new at hnew
        rw [if_neg hng] at hnew
        exact absurd hnew (by simp)
      have hlt : s.accounts.length < 2 ^ 31 := by omega
      have hmod : s.accounts.length % 2 ^ 32 = s.accounts.length :=
        Nat.mod_eq_of_lt (by omega)
      have ha :
          a = ⟨0, pathStr s.accounts.length, addressStr E k s.accounts.length, none⟩ := by
        unfold Account.new at hnew
        rw [if_pos hguard, hmod] at hnew
        exact ((Option.some.injEq _ _).mp hnew).symm
      refine ⟨by simp [List.length_append]; omega, by simp [List.length_append], ?_⟩
      intro i b hb
      by_cases hi : i < s.accounts.length
      · rw [List.getElem?_append_left hi] at hb
        exact hgood i b hb
      · by_cases hieq : i = s.accounts.length
        · subst hieq
          rw [List.getElem?_concat_length] at hb
          obtain rfl := ((Option.some.injEq _ _).mp hb).symm
          rw [ha]
          exact ⟨rfl, rfl, Or.inl rfl⟩
        · have hge : (s.accounts ++ [a]).length ≤ i := by
            simp [List.length_append]
            omega
          rw [List.getElem?_eq_none hge] at hb
          exact absurd hb (by simp)
  | switch n =>
    cases hg : get_account s.accounts n with
    | none => simp [stepCmd, hg] at h
    | some x =>
      simp [stepCmd, hg] at h
      rw [← h]
      have hn : n < s.accounts.length := by
        unfold get_account at hg
        exact (List.getElem?_eq_some_iff.mp hg).1
      exact ⟨hlen, hn, hgood⟩

theorem foldlM_RegInv {K : Type} (E : Engine K) (k : K) (cs : List Cmd)
    (s0 s : RegState) (h0 : RegInv E k s0)
    (h : cs.foldlM (fun s c => stepCmd E k s c) s0 = some s) : RegInv E k s := by
  induction cs generalizing s0 with
  | nil =>
    simp [List.foldlM] at h
    rw [← h]
    exact h0
  | cons c cs ih =>
    rw [List.foldlM_cons] at h
    cases hstep : stepCmd E k s0 c with
    | none => rw [hstep] at h; exact absurd h (by simp)
    | some s1 =>
      rw [hstep] at h
      exact ih s1 (stepCmd_RegInv E k s0 c s1 h0 hstep) h

theorem reach_RegInv {K : Type} (E : Engine K) (k : K) (cs : List Cmd) (s : RegState)
    (h : reach E k cs = some s) : RegInv E k s := by
  have hinit : RegInv E k ⟨[⟨0, pathStr 0, addressStr E k 0, none⟩], 0⟩ := by
    refine ⟨by norm_num, by simp, ?_⟩
    intro i a ha
    cases i with
    | zero =>
      simp only [List.getElem?_cons_zero, Option.some.injEq] at ha
      rw [← ha]
      exact ⟨rfl, rfl, Or.inl rfl⟩
    | succ n => simp at ha
  unfold reach at h
  rw [initReg_eq] at h
  exact foldlM_RegInv E k cs _ s hinit h

theorem Account.new_spec {K : Type} (E : Engine K) (k : K) (i : Nat) (a : Account)
    (h : Account.new E k i = some a) :
    i % 2 ^ 32 < 2 ^ 31 ∧ a.nonce = 0 ∧ a.path = pathStr i ∧
    a.address = addressStr E k (i % 2 ^ 32) ∧ a.prv_key = none := by
  unfold Account.new at h
  by_cases hg : i % 2 ^ 32 < 2 ^ 31
  · rw [if_pos hg] at h
    obtain rfl := ((Option.some.injEq _ _).mp h).symm
    exact ⟨hg, rfl, rfl, rfl, rfl⟩
  · rw [if_neg hg] at h
    exact absurd h (by simp)

theorem send_transaction_sign_key (a : Account) (inp : SendInput) (a2 : Account)
    (sc : SignCall) (h : Account.send_transaction a inp = some (a2, some sc)) :
    a.prv_key = some sc.key := by
  cases hrec : inp.recipient with
  | none => simp [Account.send_transaction, hrec] at h
  | some pr =>
    obtain ⟨disp, rb⟩ := pr
    cases hgp : inp.gasPrice with
    | none => simp [Account.send_transaction, hrec, hgp] at h
    | some p =>
      cases hpk : a.prv_key with
      | none => simp [Account.send_transaction, hrec, hgp, hpk] at h
      | some key =>
        have hsc : sc = signCallOf a rb inp.weiAmount p key := by
          by_cases hcf : inp.confirm = 1
          · cases hbr : inp.broadcastResult with
            | none =>
              simp [Account.send_transaction, hrec, hgp, hpk, hcf, hbr] at h
              exact h.2.symm
            | some s =>
              by_cases hz : s = zeroSentinel
              · simp [Account.send_transaction, hrec, hgp, hpk, hcf, hbr, hz] at h
                exact h.2.symm
              · simp [Account.send_transaction, hrec, hgp, hpk, hcf, hbr, hz] at h
                exact h.2.symm
          · simp [Account.send_transaction, hrec, hgp, hpk, hcf] at h
            exact h.2.symm
        simp [hsc, signCallOf, hpk]

theorem stepCmd_nonce_mono {K : Type} (E : Engine K) (k : K) (s : RegState)
    (c : Cmd) (s2 : RegState) (h : stepCmd E k s c = some s2) :
    s.accounts.length ≤ s2.accounts.length ∧
    ∀ i, i < s.accounts.length → nonceAt s.accounts i ≤ nonceAt s2.accounts i := by
  cases c with
  | balance =>
    simp [stepCmd] at h
    rw [← h]
    exact ⟨Nat.le_refl _, fun i _ => Nat.le_refl _⟩
  | send inp =>
    cases ha0 : s.accounts[s.active]? with
    | none => simp [stepCmd, ha0] at h
    | some a0 =>
      cases hm : Account.materialize E k a0 with
      | none => simp [stepCmd, ha0, hm] at h
      | some a1 =>
        cases hsend : Account.send_transaction a1 inp with
        | none => simp [stepCmd, ha0, hm, hsend] at h
        | some r =>
          obtain ⟨a2, t⟩ := r
          simp [stepCmd, ha0, hm, hsend] at h
          rw [← h]
          have hn1 : a1.nonce = a0.nonce := by
            rcases materialize_cases E k a0 a1 hm with ⟨key, hk, rfl⟩ | ⟨i0, _, _, rfl⟩
            · rfl
            · rfl
          have hn2 : a1.nonce ≤ a2.nonce := by
            rcases send_transaction_cases a1 inp a2 t hsend with rfl | rfl
            · exact Nat.le_refl _
            · exact Nat.le_succ _
          have hactlt : s.active < s.accounts.length :=
            (List.getElem?_eq_some_iff.mp ha0).1
          refine ⟨by simp, ?_⟩
          intro i hi
          by_cases hieq : i = s.active
          · subst hieq
            simp [nonceAt, ha0, List.getElem?_set_self hactlt]
            omega
          · simp only [nonceAt,
              List.getElem?_set_ne (fun hcon => hieq hcon.symm)]
            exact Nat.le_refl _
  | create =>
    cases hnew : Account.new E k s.accounts.length with
    | none => simp [stepCmd, hnew] at h
    | some a =>
      simp [stepCmd, hnew] at h
      rw [← h]
      constructor
      · simp [List.length_append]
      · intro i hi
        simp only [nonceAt, List.getElem?_append_left hi]
        exact Nat.le_refl _
  | switch n =>
    cases hg : get_account s.accounts n with
    | none => simp [stepCmd, hg] at h
    | some x =>
      simp [stepCmd, hg] at h
      rw [← h]
      exact ⟨Nat.le_refl _, fun i _ => Nat.le_refl _⟩

/-- C3: the nonce is incremented by exactly 1 when and only when the
recipient was valid, the user confirmed, and the broadcast response
carried a string result different from the sentinel "0x0"; every
send outcome leaves the nonce equal or incremented by exactly 1, and no
session step ever decreases any account's nonce (account positions only
gain nonce, and the list only grows). -/
theorem C3_nonce_increment :
    (∀ (a : Account) (inp : SendInput) (a2 : Account) (t : Option SignCall),
        Account.send_transaction a inp = some (a2, t) →
        ((a2.nonce = a.nonce + 1 ↔
            (inp.recipient ≠ none ∧ inp.confirm = 1 ∧
             ∃ s, inp.broadcastResult = some s ∧ s ≠ zeroSentinel)) ∧
         (a2.nonce = a.nonce ∨ a2.nonce = a.nonce + 1)))
    ∧ (∀ (K : Type) (E : Engine K) (k : K) (s : RegState) (c : Cmd) (s2 : RegState),
        stepCmd E k s c = some s2 →
        s.accounts.length ≤ s2.accounts.length ∧
        ∀ i, i < s.accounts.length → nonceAt s.accounts i ≤ nonceAt s2.accounts i) := by
  constructor
  · intro a inp a2 t h
    cases hrec : inp.recipient with
    | none =>
      simp [Account.send_transaction, hrec] at h
      obtain ⟨rfl, -⟩ := h
      refine ⟨⟨fun hinc => absurd hinc (by omega), ?_⟩, Or.inl rfl⟩
      rintro ⟨hne, -, -⟩
      exact absurd rfl hne
    | some pr =>
      obtain ⟨disp, rb⟩ := pr
      cases hgp : inp.gasPrice with
      | none => simp [Account.send_transaction, hrec, hgp] at h
      | some p =>
        cases hpk : a.prv_key with
        | none => simp [Account.send_transaction, hrec, hgp, hpk] at h
        | some key =>
          by_cases hcf : inp.confirm = 1
          · cases hbr : inp.broadcastResult with
            | none =>
              simp [Account.send_transaction, hrec, hgp, hpk, hcf, hbr] at h
              obtain ⟨rfl, -⟩ := h
              refine ⟨⟨fun hinc => absurd hinc (by omega), ?_⟩, Or.inl rfl⟩
              rintro ⟨-, -, s2, hs2, -⟩
              exact absurd hs2 (by simp)
            | some s =>
              by_cases hz : s = zeroSentinel
              · simp [Account.send_transaction, hrec, hgp, hpk, hcf, hbr, hz] at h
                obtain ⟨rfl, -⟩ := h
                refine ⟨⟨fun hinc => absurd hinc (by omega), ?_⟩, Or.inl rfl⟩
                rintro ⟨-, -, s2, hs2, hsne⟩
                obtain rfl := (Option.some.injEq _ _).mp hs2
                exact absurd hz hsne
              · simp [Account.send_transaction, hrec, hgp, hpk, hcf, hbr, hz] at h
                obtain ⟨rfl, -⟩ := h
                refine ⟨⟨fun _ => ⟨by simp, hcf, ⟨s, rfl, hz⟩⟩, fun _ => rfl⟩,
                  Or.inr rfl⟩
          · simp [Account.send_transaction, hrec, hgp, hpk, hcf] at h
            obtain ⟨rfl, -⟩ := h
            refine ⟨⟨fun hinc => absurd hinc (by omega), ?_⟩, Or.inl rfl⟩
            rintro ⟨-, hcf1, -⟩
            exact absurd hcf1 hcf
  · intro K E k s c s2 h
    exact stepCmd_nonce_mono E k s c s2 h

/-- Witness for C3: a concrete confirmed broadcast with result "0x1"
increments the nonce from 3 to 4, via the claim theorem. -/
theorem C3_nonce_increment_witness :
    (⟨4, pathStr 0, addressStr TE [3] 0, some [1]⟩ : Account).nonce
      = (⟨3, pathStr 0, addressStr TE [3] 0, some [1]⟩ : Account).nonce + 1 := by
  have h := C3_nonce_increment.1 ⟨3, pathStr 0, addressStr TE [3] 0, some [1]⟩
    ⟨some ([97], [2]), 5, some 2, 1, some [48, 120, 49]⟩
    ⟨4, pathStr 0, addressStr TE [3] 0, some [1]⟩
    (some (signCallOf ⟨3, pathStr 0, addressStr TE [3] 0, some [1]⟩ [2] 5 2 [1]))
    (by decide)
  exact h.1.mpr ⟨by decide, rfl, ⟨[48, 120, 49], rfl, by decide⟩⟩

/-- C5: in every session state reachable from creation, the account at
position i carries the path string ending in /i and the address derived
at child index i; moreover each create step appends a fresh account at
index equal to the current length, with nonce 0, and makes it active. -/
theorem C5_contiguous_indices :
    (∀ (K : Type) (E : Engine K) (k : K) (cs : List Cmd) (s : RegState),
        reach E k cs = some s →
        ∀ i a, s.accounts[i]? = some a →
          a.path = pathStr i ∧ a.address = addressStr E k i)
    ∧ (∀ (K : Type) (E : Engine K) (k : K) (s s2 : RegState),
        stepCmd E k s Cmd.create = some s2 →
        ∃ acc, Account.new E k s.accounts.length = some acc ∧
          s2.accounts = s.accounts ++ [acc] ∧ acc.nonce = 0 ∧
          s2.active = s.accounts.length) := by
  constructor
  · intro K E k cs s hs i a ha
    have hg := (reach_RegInv E k cs s hs).2.2 i a ha
    exact ⟨hg.1, hg.2.1⟩
  · intro K E k s s2 h
    cases hnew : Account.new E k s.accounts.length with
    | none => simp [stepCmd, hnew] at h
    | some acc =>
      simp [stepCmd, hnew] at h
      exact ⟨acc, rfl, by rw [← h], (Account.new_spec E k _ acc hnew).2.1, by rw [← h]⟩

/-- Witness for C5: after one create on a fresh registry, the account at
position 1 has path ending in /1 and the child-1 address. -/
theorem C5_contiguous_indices_witness :
    (⟨0, pathStr 1, addressStr TE [3] 1, none⟩ : Account).path = pathStr 1 ∧
    (⟨0, pathStr 1, addressStr TE [3] 1, none⟩ : Account).address
      = addressStr TE [3] 1 := by
  exact C5_contiguous_indices.1 (List Nat) TE [3] [Cmd.create]
    ((reach TE [3] [Cmd.create]).getD ⟨[], 0⟩) (by decide) 1
    ⟨0, pathStr 1, addressStr TE [3] 1, none⟩ (by decide)

/-- C9: in every reachable state, re-parsing the last path segment of the
account stored at position i yields exactly i, and materializing its
signing key produces the private bytes of the non-hardened child at
index i — the child whose address the account has cached. -/
theorem C9_materialize_own_index :
    ∀ (K : Type) (E : Engine K) (k : K) (cs : List Cmd) (s : RegState),
      reach E k cs = some s →
      ∀ i a, s.accounts[i]? = some a →
        materializeIndex a = some i ∧
        ∃ a2, Account.materialize E k a = some a2 ∧
          a2.prv_key = some (E.prvBytes (E.deriveChild k i false)) ∧
          a2.address = addressStr E k i := by
  intro K E k cs s hs i a ha
  obtain ⟨hlen, -, hgood⟩ := reach_RegInv E k cs s hs
  have hg := hgood i a ha
  have hilen : i < s.accounts.length := (List.getElem?_eq_some_iff.mp ha).1
  have hi32 : i < 2 ^ 32 := by omega
  have hmidx := materializeIndex_pathStr a i hg.1 hi32
  refine ⟨hmidx, ?_⟩
  rcases hg.2.2 with hpk | hpk
  · refine ⟨{ a with prv_key := some (E.prvBytes (E.deriveChild k i false)) },
      ?_, rfl, hg.2.1⟩
    simp [Account.materialize, hpk, hmidx]
  · refine ⟨a, ?_, hpk, hg.2.1⟩
    simp [Account.materialize, hpk]

/-- Witness for C9: the default account of a fresh registry parses back
index 0 and materializes the child-0 secret bytes. -/
theorem C9_materialize_own_index_witness :
    materializeIndex ⟨0, pathStr 0, addressStr TE [3] 0, none⟩ = some 0 ∧
    ∃ a2, Account.materialize TE [3] ⟨0, pathStr 0, addressStr TE [3] 0, none⟩
        = some a2 ∧
      a2.prv_key = some (TE.prvBytes (TE.deriveChild [3] 0 false)) ∧
      a2.address = addressStr TE [3] 0 := by
  exact C9_materialize_own_index (List Nat) TE [3] []
    ((reach TE [3] []).getD ⟨[], 0⟩) (by decide) 0
    ⟨0, pathStr 0, addressStr TE [3] 0, none⟩ (by decide)

/-- C6 as amended: an out-of-bounds index makes get_account and the
switch step return `none`, the model of the process-terminating
index-out-of-bounds panic of `&mut self.accounts[index]` (storage.rs line
157) — there is no recoverable in-band error; an in-bounds index repoints
the active account to that index and changes nothing else. -/
theorem C6_switch_bounds :
    (∀ (K : Type) (E : Engine K) (k : K) (s : RegState) (n : Nat),
        s.accounts.length ≤ n →
        get_account s.accounts n = none ∧ stepCmd E k s (Cmd.switch n) = none)
    ∧ (∀ (K : Type) (E : Engine K) (k : K) (s : RegState) (n : Nat),
        n < s.accounts.length →
        stepCmd E k s (Cmd.switch n) = some ⟨s.accounts, n⟩) := by
  constructor
  · intro K E k s n hn
    have hg : get_account s.accounts n = none := by
      unfold get_account
      exact List.getElem?_eq_none hn
    exact ⟨hg, by simp [stepCmd, hg]⟩
  · intro K E k s n hn
    obtain ⟨a, ha⟩ : ∃ a, s.accounts[n]? = some a := by
      cases hq : s.accounts[n]? with
      | none =>
        rw [List.getElem?_eq_none_iff] at hq
        omega
      | some a => exact ⟨a, rfl⟩
    simp [stepCmd, get_account, ha]

/-- Witness for C6 (amended): on a one-account registry, switching to
index 0 succeeds and repoints, and index 3 is out of bounds. -/
theorem C6_switch_bounds_witness :
    stepCmd TE [3] ⟨[⟨0, pathStr 0, addressStr TE [3] 0, none⟩], 0⟩ (Cmd.switch 0)
      = some ⟨[⟨0, pathStr 0, addressStr TE [3] 0, none⟩], 0⟩ ∧
    get_account [⟨0, pathStr 0, addressStr TE [3] 0, none⟩] 3 = none := by
  constructor
  · exact C6_switch_bounds.2 (List Nat) TE [3]
      ⟨[⟨0, pathStr 0, addressStr TE [3] 0, none⟩], 0⟩ 0 (by decide)
  · exact (C6_switch_bounds.1 (List Nat) TE [3]
      ⟨[⟨0, pathStr 0, addressStr TE [3] 0, none⟩], 0⟩ 3 (by decide)).1

/-- Counterexample for C6 as stated: on a registry holding one account,
switching to index 1 does not produce a recoverable IndexError outcome —
the operation is the `none` of this embedding, i.e. the Rust
index-out-of-bounds panic that aborts the process, and `get_account`
likewise has no error value to report.  The claim's "a reportable error,
not a crash" is false of the code. -/
theorem C6_switch_counterexample :
    get_account [⟨0, pathStr 0, addressStr TE [3] 0, none⟩] 1 = none ∧
    stepCmd TE [3] ⟨[⟨0, pathStr 0, addressStr TE [3] 0, none⟩], 0⟩ (Cmd.switch 1)
      = none ∧
    ∀ s2 : RegState,
      stepCmd TE [3] ⟨[⟨0, pathStr 0, addressStr TE [3] 0, none⟩], 0⟩ (Cmd.switch 1)
        ≠ some s2 := by
  refine ⟨by decide, by decide, ?_⟩
  intro s2 hcon
  rw [show stepCmd TE [3] ⟨[⟨0, pathStr 0, addressStr TE [3] 0, none⟩], 0⟩
      (Cmd.switch 1) = none from by decide] at hcon
  exact absurd hcon (by simp)

/-- C7: accounts created at two child indices whose 20-byte derived
addresses differ (the spec's cryptographic distinctness assumption for
the missing crypto sources) have distinct cached address strings — the
"0x"-prefixed lowercase-hex rendering is injective on byte sequences. -/
theorem C7_distinct_addresses :
    ∀ (K : Type) (E : Engine K) (k : K) (i j : Nat) (ai aj : Account),
      Account.new E k i = some ai → Account.new E k j = some aj →
      (∀ x ∈ addrBytesAt E k (i % 2 ^ 32), x < 256) →
      (∀ x ∈ addrBytesAt E k (j % 2 ^ 32), x < 256) →
      addrBytesAt E k (i % 2 ^ 32) ≠ addrBytesAt E k (j % 2 ^ 32) →
      ai.address ≠ aj.address := by
  intro K E k i j ai aj hi hj hbi hbj hne
  have hsi := Account.new_spec E k i ai hi
  have hsj := Account.new_spec E k j aj hj
  rw [hsi.2.2.2.1, hsj.2.2.2.1]
  exact addressStr_inj E k _ _ hbi hbj hne

/-- Witness for C7: with the concrete engine, the accounts created at
indices 0 and 1 from the same deriving key have distinct addresses. -/
theorem C7_distinct_addresses_witness :
    ((Account.new TE [3] 0).getD ⟨0, [], [], none⟩).address
      ≠ ((Account.new TE [3] 1).getD ⟨0, [], [], none⟩).address := by
  exact C7_distinct_addresses (List Nat) TE [3] 0 1
    ((Account.new TE [3] 0).getD ⟨0, [], [], none⟩)
    ((Account.new TE [3] 1).getD ⟨0, [], [], none⟩)
    (by decide) (by decide) (by decide) (by decide) (by decide)

/-- C8 as amended, storage.rs side: in every reachable session state,
any signature issued by the send pipeline uses the private bytes of the
non-hardened child, at the active account's index, of the deriving key
(the ETH_DERIVE_KEY_PATH key) — hence any value distinct from all such
child keys, in particular the verification-path private key under the
spec's key-distinctness assumption, is never passed to the signing
routine. -/
theorem C8_signing_key :
    ∀ (K : Type) (E : Engine K) (k : K) (cs : List Cmd) (s : RegState),
      reach E k cs = some s →
      ∀ (a0 a1 a2 : Account) (inp : SendInput) (sc : SignCall),
        s.accounts[s.active]? = some a0 →
        Account.materialize E k a0 = some a1 →
        Account.send_transaction a1 inp = some (a2, some sc) →
        sc.key = E.prvBytes (E.deriveChild k s.active false) ∧
        ∀ v : Bytes,
          (∀ j, j < s.accounts.length → E.prvBytes (E.deriveChild k j false) ≠ v) →
          sc.key ≠ v := by
  intro K E k cs s hs a0 a1 a2 inp sc ha0 hm hsend
  obtain ⟨hlen, hact, hgood⟩ := reach_RegInv E k cs s hs
  have hga0 := hgood s.active a0 ha0
  have hmidx := materializeIndex_pathStr a0 s.active hga0.1 (by omega)
  have hkey1 : a1.prv_key = some (E.prvBytes (E.deriveChild k s.active false)) := by
    rcases materialize_cases E k a0 a1 hm with ⟨key, hk, rfl⟩ | ⟨i0, hi0, hpk0, rfl⟩
    · rcases hga0.2.2 with hpk | hpk
      · rw [hpk] at hk
        exact absurd hk (by simp)
      · exact hpk
    · rw [hmidx] at hi0
      obtain rfl := (Option.some.injEq _ _).mp hi0
      rfl
  have hk2 : a1.prv_key = some sc.key := send_transaction_sign_key a1 inp a2 sc hsend
  rw [hkey1] at hk2
  have hkey : sc.key = E.prvBytes (E.deriveChild k s.active false) :=
    ((Option.some.injEq _ _).mp hk2).symm
  refine ⟨hkey, ?_⟩
  intro v hv
  rw [hkey]
  exact hv s.active hact

/-- Witness for C8 (amended): a concrete send on the fresh registry signs
with the child-0 secret bytes of the deriving key. -/
theorem C8_signing_key_witness :
    (signCallOf ⟨0, pathStr 0, addressStr TE [3] 0, some [0, 0, 3]⟩ [1] 5 2
        [0, 0, 3]).key
      = TE.prvBytes (TE.deriveChild [3] 0 false) := by
  have h := C8_signing_key (List Nat) TE [3] []
    ⟨[⟨0, pathStr 0, addressStr TE [3] 0, none⟩], 0⟩ (by decide)
    ⟨0, pathStr 0, addressStr TE [3] 0, none⟩
    ⟨0, pathStr 0, addressStr TE [3] 0, some [0, 0, 3]⟩
    ⟨0, pathStr 0, addressStr TE [3] 0, some [0, 0, 3]⟩
    ⟨some ([97], [1]), 5, some 2, 0, none⟩
    (signCallOf ⟨0, pathStr 0, addressStr TE [3] 0, some [0, 0, 3]⟩ [1] 5 2 [0, 0, 3])
    (by decide) (by decide) (by decide)
  exact h.1

/-- Counterexample for C8 as stated: the main.rs flow (the code the binary
actually runs) stores the public key of the hardened child m/0h as the
login verification key and then hands that very key's private bytes to
tx.sign — the key pair used to prove password correctness is exactly the
signing key, and it is a hardened child, not a non-hardened
account-deriving-path child. -/
theorem C8_signing_key_counterexample :
    ∃ sk : List Nat,
      sk = TE.deriveChild (TE.rootFromSeed [7]) 0 true ∧
      mainStoredRootPubKey TE [7] = (TE.pubBytes sk).drop 1 ∧
      (mainSendSignCall TE (generate_default_keypair TE [7]).1 [2] 5).key
        = TE.prvBytes sk :=
  ⟨[0, 1, 7], by decide, by decide, by decide⟩

theorem jsonAccount_fields (a : Account) :
    Json.lookup (jsonAccount a) nonceKey = some (Json.num a.nonce) ∧
    Json.lookup (jsonAccount a) pathKey = some (Json.str a.path) ∧
    Json.lookup (jsonAccount a) addressKey = some (Json.str a.address) ∧
    Json.lookup (jsonAccount a) prvKeyKey
      = some (match a.prv_key with
              | none => Json.null
              | some b => jsonBytes b) := by
  refine ⟨?_, ?_, ?_, ?_⟩
  · show lookupField _ nonceKey = _
    simp [lookupField, nonceKey, pathKey, addressKey, prvKeyKey]
  · show lookupField _ pathKey = _
    simp [lookupField, nonceKey, pathKey, addressKey, prvKeyKey]
  · show lookupField _ addressKey = _
    simp [lookupField, nonceKey, pathKey, addressKey, prvKeyKey]
  · show lookupField _ prvKeyKey = _
    simp [lookupField, nonceKey, pathKey, addressKey, prvKeyKey]

/-- C4: the record Wallet::store writes contains the pad, the verification
key and, per account, nonce, path and address — while the deriving key is
absent from the serialized metadata (serde skip) and every serialized
account's prv_key field is null (cleared before serialization); the
retained in-memory wallet is likewise stripped of the deriving key. -/
theorem C4_store_no_secrets :
    ∀ (K : Type) (w : Wallet K),
      Json.lookup (Wallet.store w).1 padKey = some (jsonBytes w.pad) ∧
      Json.lookup (Wallet.store w).1 verificationKeyKey
        = some (jsonBytes w.verification_key) ∧
      (∃ md, Json.lookup (Wallet.store w).1 accountsMetadataKey = some md ∧
        Json.lookup md derivingKeyKey = none ∧
        Json.lookup md accountsKey
          = some (Json.arr
              ((clearSensitive w).accounts_metadata.accounts.map jsonAccount))) ∧
      (Wallet.store w).2.accounts_metadata.deriving_key = none ∧
      ∀ aj, aj ∈ (clearSensitive w).accounts_metadata.accounts.map jsonAccount →
        Json.lookup aj prvKeyKey = some Json.null ∧
        (∃ n, Json.lookup aj nonceKey = some (Json.num n)) ∧
        (∃ p, Json.lookup aj pathKey = some (Json.str p)) ∧
        (∃ ad, Json.lookup aj addressKey = some (Json.str ad)) := by
  intro K w
  refine ⟨?_, ?_,
    ⟨jsonMetadata (clearSensitive w).accounts_metadata, ?_, ?_, ?_⟩, rfl, ?_⟩
  · show lookupField _ padKey = _
    simp [lookupField, clearSensitive, padKey, verificationKeyKey, accountsMetadataKey]
  · show lookupField _ verificationKeyKey = _
    simp [lookupField, clearSensitive, padKey, verificationKeyKey, accountsMetadataKey]
  · show lookupField _ accountsMetadataKey = _
    simp [lookupField, padKey, verificationKeyKey, accountsMetadataKey]
  · show lookupField _ derivingKeyKey = _
    simp [lookupField, jsonMetadata, accountsKey, derivingKeyKey]
  · show lookupField _ accountsKey = _
    simp [lookupField, jsonMetadata, accountsKey]
  · intro aj haj
    obtain ⟨a1, ha1, rfl⟩ := List.mem_map.mp haj
    simp only [clearSensitive, List.mem_map] at ha1
    obtain ⟨a, ha, rfl⟩ := ha1
    have hf := jsonAccount_fields { a with prv_key := none }
    exact ⟨hf.2.2.2, ⟨a.nonce, hf.1⟩, ⟨a.path, hf.2.1⟩, ⟨a.address, hf.2.2.1⟩⟩

/-- Witness for C4: a concrete wallet holding a deriving key and an
account with a set private key serializes that account with a null
prv_key field. -/
theorem C4_store_no_secrets_witness :
    Json.lookup (jsonAccount ⟨2, pathStr 1, addressStr TE [3] 1, none⟩) prvKeyKey
      = some Json.null ∧
    (Wallet.store
        (Wallet.mk [1] [2]
          (AccountMetadata.mk (some [9])
            [⟨2, pathStr 1, addressStr TE [3] 1, some [7]⟩]))).2.accounts_metadata.deriving_key
      = none := by
  have h := C4_store_no_secrets (List Nat)
    (Wallet.mk [1] [2]
      (AccountMetadata.mk (some [9]) [⟨2, pathStr 1, addressStr TE [3] 1, some [7]⟩]))
  refine ⟨?_, h.2.2.2.1⟩
  exact (h.2.2.2.2 (jsonAccount ⟨2, pathStr 1, addressStr TE [3] 1, none⟩)
    (List.mem_singleton.mpr rfl)).1
